import Mathlib

/-!
Verification of the page-to-slide reconstruction engine of
`server_light.py` (PDF to PowerPoint web application).

The definitions below are a shallow embedding of the Python source:
  * the Text Run Composer (the per-block run-emission loop of
    `generate_pptx_from_analysis`, lines 563-602),
  * the Coordinate Mapper (lines 483-489 and 541-553),
  * the Background Estimator (`get_background_color`, lines 421-430),
  * the Graphic Region Extractor filter (lines 492-532),
  * the per-page slide assembly (lines 441-602), and
  * the progress writes of `process_pdf_with_gemini` (lines 247-390).

Python machine behaviour that the engine relies on is embedded
explicitly: string slicing `text[a:b]` (negative indices wrap once,
then clamp) and `int()` truncation toward zero on rationals.
-/

namespace ServerLight

/-- Python string-slice index resolution for `s[a:b]`: a negative index
has the length added once and is then clamped below by 0; a nonnegative
index is clamped above by the length. -/
def pyResolve (len : Nat) (i : Int) : Nat :=
  if i < 0 then (len + i).toNat else min i.toNat len

/-- Python string slice `s[a:b]` (empty when the resolved start is at or
beyond the resolved stop).  Never raises for integer indices. -/
def pySlice (s : List Char) (a b : Int) : List Char :=
  (s.take (pyResolve s.length b)).drop (pyResolve s.length a)

/-- Python `int()` applied to an exact rational: truncation toward zero
(`Int.div` of numerator by denominator). -/
def pyInt (q : ℚ) : Int :=
  Int.tdiv q.num q.den

/-- One entry of a block's `colors` list as delivered by the vision
collaborator: both fields may be absent (`color_info.get`). -/
structure ColorInfo where
  range : Option (Int × Int)
  rgb : Option (Nat × Nat × Nat)
deriving DecidableEq, Repr

/-- A styled run placed into the paragraph: text, color, and the
block-uniform font size, family and weight. -/
structure Run where
  text : List Char
  rgb : Nat × Nat × Nat
  font_size_pt : ℚ
  font_family : String
  is_bold : Bool
deriving DecidableEq, Repr

/-- A text block after field extraction with the source's defaults
(`block.get("font_size_pt", 12)` and so on). -/
structure TextBlockV where
  text : List Char
  font_size_pt : ℚ
  font_family : String
  is_bold : Bool
  colors : List ColorInfo
deriving DecidableEq, Repr

/-- Processing of one `color_info` (lines 573-585): resolve the default
range `[0, len(text)]` when absent, slice, and emit a run only when the
slice is non-empty; the second component is the raw `end` used for the
`covered = max(covered, end)` update. -/
def emitColor (text : List Char) (fs : ℚ) (ff : String) (bold : Bool)
    (ci : ColorInfo) : Option Run × Int :=
  let se := ci.range.getD (0, (text.length : Int))
  let rt := pySlice text se.1 se.2
  (if rt = [] then Option.none
   else Option.some { text := rt, rgb := ci.rgb.getD (0, 0, 0),
                      font_size_pt := fs, font_family := ff, is_bold := bold },
   se.2)

/-- One iteration of the run-emission loop: append the emitted run (if
any) and track the maximum `end` seen so far. -/
def composeStep (text : List Char) (fs : ℚ) (ff : String) (bold : Bool)
    (acc : List Run × Int) (ci : ColorInfo) : List Run × Int :=
  let er := emitColor text fs ff bold ci
  ((match er.1 with
    | Option.none => acc.1
    | Option.some r => acc.1 ++ [r]),
   max acc.2 er.2)

/-- The full loop over `colors`, starting from no runs and `covered = 0`. -/
def composeFold (tb : TextBlockV) : List Run × Int :=
  tb.colors.foldl (composeStep tb.text tb.font_size_pt tb.font_family tb.is_bold) ([], 0)

/-- The value of `covered` after the loop. -/
def composeCovered (tb : TextBlockV) : Int :=
  (composeFold tb).2

/-- The Text Run Composer (lines 570-602): with empty `colors` a single
default-black run holding the whole text; otherwise the loop's runs,
followed by one final black run `text[covered:]` when `covered < len(text)`. -/
def composeRuns (tb : TextBlockV) : List Run :=
  if tb.colors = [] then
    [{ text := tb.text, rgb := (0, 0, 0), font_size_pt := tb.font_size_pt,
       font_family := tb.font_family, is_bold := tb.is_bold }]
  else
    let p := composeFold tb
    if p.2 < (tb.text.length : Int) then
      p.1 ++ [{ text := pySlice tb.text p.2 (tb.text.length : Int), rgb := (0, 0, 0),
                font_size_pt := tb.font_size_pt, font_family := tb.font_family,
                is_bold := tb.is_bold }]
    else
      p.1

/-- Concatenation of the texts of a run sequence. -/
def concatRuns : List Run → List Char
  | [] => []
  | r :: rs => r.text ++ concatRuns rs

@[simp]
theorem concatRuns_nil : concatRuns [] = [] := rfl

@[simp]
theorem concatRuns_cons (r : Run) (rs : List Run) :
    concatRuns (r :: rs) = r.text ++ concatRuns rs := rfl

theorem concatRuns_append (a b : List Run) :
    concatRuns (a ++ b) = concatRuns a ++ concatRuns b := by
  induction a with
  | nil => simp
  | cons r rs ih => simp [ih]

theorem pyResolve_of_nonneg (len : Nat) (i : Int) (h0 : 0 ≤ i) (hl : i ≤ (len : Int)) :
    pyResolve len i = i.toNat := by
  unfold pyResolve
  rw [if_neg (by omega)]
  omega

theorem slice_glue (s : List Char) (na nb nc : Nat) (h1 : na ≤ nb) (h2 : nb ≤ nc) :
    ((s.take nb).drop na) ++ ((s.take nc).drop nb) = (s.take nc).drop na := by
  rw [List.drop_take, List.drop_take, List.drop_take]
  have hd : s.drop nb = (s.drop na).drop (nb - na) := by
    rw [List.drop_drop]
    congr 1
    omega
  rw [hd, ← List.take_add]
  congr 1
  omega

theorem pySlice_append (s : List Char) (a b c : Int) (h0 : 0 ≤ a) (hab : a ≤ b)
    (hbc : b ≤ c) (hc : c ≤ (s.length : Int)) :
    pySlice s a b ++ pySlice s b c = pySlice s a c := by
  unfold pySlice
  rw [pyResolve_of_nonneg _ _ (le_trans h0 hab) (le_trans hbc hc),
      pyResolve_of_nonneg _ _ (le_trans (le_trans h0 hab) hbc) hc,
      pyResolve_of_nonneg _ _ h0 (le_trans hab (le_trans hbc hc))]
  exact slice_glue s _ _ _ (by omega) (by omega)

theorem pySlice_full (s : List Char) : pySlice s 0 (s.length : Int) = s := by
  unfold pySlice
  rw [pyResolve_of_nonneg _ _ (Int.ofNat_nonneg _) le_rfl,
      pyResolve_of_nonneg _ _ le_rfl (Int.ofNat_nonneg _)]
  simp

theorem pySlice_empty (s : List Char) (a : Int) : pySlice s a a = [] := by
  unfold pySlice
  simp [List.drop_take]

/-- The declared color ranges, in order, tile an initial segment of the
text contiguously starting at offset `c`: each range is present, starts
where the previous one ended, and stays inside the text. -/
inductive Tiling (len : Nat) : Int → List ColorInfo → Prop
  | nil (c : Int) : Tiling len c []
  | cons (c e : Int) (ci : ColorInfo) (rest : List ColorInfo)
      (hr : ci.range = Option.some (c, e)) (hce : c ≤ e) (hel : e ≤ (len : Int))
      (ht : Tiling len e rest) : Tiling len c (ci :: rest)

theorem composeFold_tiling (text : List Char) (fs : ℚ) (ff : String) (bold : Bool) :
    ∀ (l : List ColorInfo) (c : Int) (rs0 : List Run), 0 ≤ c → c ≤ (text.length : Int) →
    Tiling text.length c l →
    c ≤ (l.foldl (composeStep text fs ff bold) (rs0, c)).2 ∧
    (l.foldl (composeStep text fs ff bold) (rs0, c)).2 ≤ (text.length : Int) ∧
    concatRuns (l.foldl (composeStep text fs ff bold) (rs0, c)).1
      = concatRuns rs0 ++ pySlice text c (l.foldl (composeStep text fs ff bold) (rs0, c)).2 := by
  intro l
  induction l with
  | nil =>
    intro c rs0 h0 hc _
    refine ⟨le_rfl, hc, ?_⟩
    simp [pySlice_empty]
  | cons ci rest ih =>
    intro c rs0 h0 hc ht
    cases ht with
    | cons _ e _ _ hr hce hel ht' =>
      have hstep : composeStep text fs ff bold (rs0, c) ci
          = ((match (emitColor text fs ff bold ci).1 with
              | Option.none => rs0
              | Option.some r => rs0 ++ [r]), max c e) := by
        simp [composeStep, emitColor, hr]
      have hmax : max c e = e := max_eq_right hce
      rw [hmax] at hstep
      have hcat : concatRuns (match (emitColor text fs ff bold ci).1 with
              | Option.none => rs0
              | Option.some r => rs0 ++ [r]) = concatRuns rs0 ++ pySlice text c e := by
        unfold emitColor
        rw [hr]
        by_cases hrt : pySlice text c e = []
        · simp [hrt]
        · simp [hrt, concatRuns_append]
      rw [List.foldl_cons, hstep]
      obtain ⟨ih1, ih2, ih3⟩ := ih e _ (le_trans h0 hce) hel ht'
      refine ⟨le_trans hce ih1, ih2, ?_⟩
      rw [ih3, hcat, List.append_assoc,
          pySlice_append text c e _ h0 hce ih1 ih2]

/-- C1 (amended): the Text Run Composer's runs concatenate to exactly
`block.text` when `colors` is empty or forms an in-bounds contiguous
tiling of an initial segment of the text starting at offset 0. -/
theorem c1_coverage_amended (tb : TextBlockV) (ht : Tiling tb.text.length 0 tb.colors) :
    concatRuns (composeRuns tb) = tb.text := by
  unfold composeRuns
  by_cases hc : tb.colors = []
  · simp [hc]
  · rw [if_neg hc]
    obtain ⟨h1, h2, h3⟩ := composeFold_tiling tb.text tb.font_size_pt tb.font_family
      tb.is_bold tb.colors 0 [] le_rfl (Int.ofNat_nonneg _) ht
    have hfold : composeFold tb
        = tb.colors.foldl (composeStep tb.text tb.font_size_pt tb.font_family tb.is_bold)
            ([], 0) := rfl
    rw [← hfold] at h1 h2 h3
    by_cases hlt : (composeFold tb).2 < (tb.text.length : Int)
    · rw [if_pos hlt, concatRuns_append, h3]
      simp only [concatRuns_cons, concatRuns_nil, List.nil_append, List.append_nil]
      rw [pySlice_append tb.text 0 _ _ le_rfl h1 (le_of_lt hlt) le_rfl, pySlice_full]
    · rw [if_neg hlt]
      have he : (composeFold tb).2 = (tb.text.length : Int) := le_antisymm h2 (not_lt.mp hlt)
      rw [h3, he]
      simp only [concatRuns_nil, List.nil_append]
      exact pySlice_full tb.text

/-- Concrete block with a gapped color range: text `"AB"` with the single
range `[1, 2]`. -/
def tbGap : TextBlockV :=
  { text := ['A', 'B'], font_size_pt := 12, font_family := "Roboto", is_bold := false,
    colors := [{ range := Option.some (1, 2), rgb := Option.some (0, 0, 0) }] }

/-- C1 (counterexample): for the block `tbGap`, whose single color range
`[1, 2]` leaves a gap at the start of the text, the composed runs
concatenate to `"B"`, not to the original text `"AB"` — so the coverage
property fails for malformed (gapped) `colors`. -/
theorem c1_coverage_cex : concatRuns (composeRuns tbGap) ≠ tbGap.text := by
  decide

/-- C1 (witness): a concrete contiguous tiling for which the amended
coverage theorem applies. -/
def tbTile : TextBlockV :=
  { text := ['A', 'B'], font_size_pt := 12, font_family := "Roboto", is_bold := false,
    colors := [{ range := Option.some (0, 1), rgb := Option.some (255, 0, 0) },
               { range := Option.some (1, 2), rgb := Option.some (0, 0, 255) }] }

theorem c1_coverage_witness :
    Tiling tbTile.text.length 0 tbTile.colors ∧ concatRuns (composeRuns tbTile) = tbTile.text := by
  have ht : Tiling tbTile.text.length 0 tbTile.colors := by
    refine Tiling.cons 0 1 _ _ rfl (by decide) (by decide) ?_
    refine Tiling.cons 1 2 _ _ rfl (by decide) (by decide) ?_
    exact Tiling.nil 2
  exact ⟨ht, c1_coverage_amended tbTile ht⟩

theorem composeFold_snd_mono (text : List Char) (fs : ℚ) (ff : String) (bold : Bool) :
    ∀ (l : List ColorInfo) (acc : List Run × Int),
    acc.2 ≤ (l.foldl (composeStep text fs ff bold) acc).2 := by
  intro l
  induction l with
  | nil => intro acc; exact le_rfl
  | cons ci rest ih =>
    intro acc
    refine le_trans ?_ (ih (composeStep text fs ff bold acc ci))
    exact le_max_left _ _

theorem composeCovered_nonneg (tb : TextBlockV) : 0 ≤ composeCovered tb :=
  composeFold_snd_mono tb.text tb.font_size_pt tb.font_family tb.is_bold tb.colors ([], 0)

/-- C2 (amended): the run-composition step is a total function (the
embedding of Python slicing never raises for integer indices), and the
suffix of the text from the tracked maximum `end` (`covered`) is always
present at the end of the emitted runs; characters before `covered` may
still be omitted when a range has `start > end`. -/
theorem c2_no_drop_amended (tb : TextBlockV) :
    tb.text.drop (composeCovered tb).toNat <:+ concatRuns (composeRuns tb) := by
  unfold composeRuns
  by_cases hc : tb.colors = []
  · have h0 : composeCovered tb = 0 := by
      simp [composeCovered, composeFold, hc]
    rw [if_pos hc, h0]
    simp
  · rw [if_neg hc]
    have hfold : composeCovered tb = (composeFold tb).2 := rfl
    by_cases hlt : (composeFold tb).2 < (tb.text.length : Int)
    · rw [if_pos hlt]
      have h0 : 0 ≤ (composeFold tb).2 := composeCovered_nonneg tb
      have hsl : pySlice tb.text (composeFold tb).2 (tb.text.length : Int)
          = tb.text.drop (composeFold tb).2.toNat := by
        unfold pySlice
        rw [pyResolve_of_nonneg _ _ h0 (le_of_lt hlt),
            pyResolve_of_nonneg _ _ (Int.ofNat_nonneg _) le_rfl]
        simp
      rw [concatRuns_append]
      simp only [concatRuns_cons, concatRuns_nil, List.append_nil, hsl, hfold]
      exact List.suffix_append _ _
    · rw [if_neg hlt]
      have hge : tb.text.length ≤ (composeCovered tb).toNat := by
        rw [hfold]
        omega
      rw [List.drop_eq_nil_of_le hge]
      exact List.nil_suffix

theorem composeFold_fst_mono (text : List Char) (fs : ℚ) (ff : String) (bold : Bool) :
    ∀ (l : List ColorInfo) (acc : List Run × Int) (r : Run),
    r ∈ acc.1 → r ∈ (l.foldl (composeStep text fs ff bold) acc).1 := by
  intro l
  induction l with
  | nil => intro acc r h; exact h
  | cons ci rest ih =>
    intro acc r h
    refine ih _ r ?_
    rcases h1 : (emitColor text fs ff bold ci).1 with _ | r1
    · simpa [composeStep, h1] using h
    · simp only [composeStep, h1]
      exact List.mem_append_left _ h

theorem mem_composeFold_aux (text : List Char) (fs : ℚ) (ff : String) (bold : Bool)
    (ci : ColorInfo) (r : Run)
    (hr : (emitColor text fs ff bold ci).1 = Option.some r) :
    ∀ (l : List ColorInfo) (acc : List Run × Int), ci ∈ l →
    r ∈ (l.foldl (composeStep text fs ff bold) acc).1 := by
  intro l
  induction l with
  | nil => intro acc h; exact absurd h (List.not_mem_nil _)
  | cons ci1 rest ih =>
    intro acc h
    rcases List.mem_cons.mp h with he | hm
    · subst he
      refine composeFold_fst_mono text fs ff bold rest _ r ?_
      simp only [composeStep, hr]
      exact List.mem_append_right _ (List.mem_singleton.mpr rfl)
    · exact ih _ hm

theorem mem_composeRuns (tb : TextBlockV) (r : Run)
    (hc : tb.colors ≠ []) (hm : r ∈ (composeFold tb).1) :
    r ∈ composeRuns tb := by
  unfold composeRuns
  rw [if_neg hc]
  by_cases hlt : (composeFold tb).2 < (tb.text.length : Int)
  · rw [if_pos hlt]
    exact List.mem_append_left _ hm
  · rw [if_neg hlt]
    exact hm

/-- C10: a color entry whose `range` field is absent is treated as
covering the entire text `[0, len(text)]`, and a color entry whose
`rgb` field is absent — independently of whether its `range` is
present — has its emitted run colored with the default black `(0,0,0)`;
in both cases the emitted run inherits the block's font size, family
and bold flag and appears among the composed runs. -/
theorem c10_missing_fields (tb : TextBlockV) (ci : ColorInfo) (hci : ci ∈ tb.colors)
    (ht : tb.text ≠ []) :
    (ci.range = Option.none →
      ∃ r : Run,
        (emitColor tb.text tb.font_size_pt tb.font_family tb.is_bold ci).1 = Option.some r ∧
        r ∈ composeRuns tb ∧
        r.text = tb.text ∧
        (ci.rgb = Option.none → r.rgb = (0, 0, 0)) ∧
        r.font_size_pt = tb.font_size_pt ∧ r.font_family = tb.font_family ∧
        r.is_bold = tb.is_bold) ∧
    (ci.rgb = Option.none →
      ∀ r : Run,
        (emitColor tb.text tb.font_size_pt tb.font_family tb.is_bold ci).1 = Option.some r →
        r.rgb = (0, 0, 0) ∧ r ∈ composeRuns tb ∧
        r.font_size_pt = tb.font_size_pt ∧ r.font_family = tb.font_family ∧
        r.is_bold = tb.is_bold) := by
  constructor
  · intro hr
    have hemit : (emitColor tb.text tb.font_size_pt tb.font_family tb.is_bold ci).1
        = Option.some { text := tb.text, rgb := ci.rgb.getD (0, 0, 0),
                        font_size_pt := tb.font_size_pt, font_family := tb.font_family,
                        is_bold := tb.is_bold } := by
      unfold emitColor
      rw [hr]
      simp only [Option.getD_none]
      rw [pySlice_full]
      simp [if_neg ht]
    refine ⟨_, hemit, ?_, rfl, ?_, rfl, rfl, rfl⟩
    · exact mem_composeRuns tb _ (List.ne_nil_of_mem hci)
        (mem_composeFold_aux tb.text tb.font_size_pt tb.font_family tb.is_bold ci _ hemit
          tb.colors ([], 0) hci)
    · intro hrgb
      simp [hrgb]
  · intro hrgb r hr
    have hmem : r ∈ composeRuns tb :=
      mem_composeRuns tb r (List.ne_nil_of_mem hci)
        (mem_composeFold_aux tb.text tb.font_size_pt tb.font_family tb.is_bold ci r hr
          tb.colors ([], 0) hci)
    simp only [emitColor] at hr
    by_cases hempty : pySlice tb.text (ci.range.getD (0, (tb.text.length : Int))).1
        (ci.range.getD (0, (tb.text.length : Int))).2 = []
    · rw [if_pos hempty] at hr
      exact absurd hr (by simp)
    · rw [if_neg hempty] at hr
      have hre := Option.some.inj hr
      refine ⟨?_, hmem, ?_, ?_, ?_⟩ <;> rw [← hre]
      simp [hrgb]

/-- Concrete data for the C10 witness: a block with one color entry
missing both fields and one with a present `range` but no `rgb`. -/
def ciMissing : ColorInfo := { range := Option.none, rgb := Option.none }

def ciNoRgb : ColorInfo := { range := Option.some (0, 1), rgb := Option.none }

def tbMissing : TextBlockV :=
  { text := ['A', 'B'], font_size_pt := 20, font_family := "Merriweather", is_bold := true,
    colors := [ciMissing, ciNoRgb] }

/-- The run the composer emits for `ciNoRgb` inside `tbMissing`. -/
def runNoRgb : Run :=
  { text := ['A'], rgb := (0, 0, 0), font_size_pt := 20, font_family := "Merriweather",
    is_bold := true }

theorem c10_missing_fields_witness :
    ciMissing ∈ tbMissing.colors ∧ ciNoRgb ∈ tbMissing.colors ∧ tbMissing.text ≠ [] ∧
    ciMissing.range = Option.none ∧ ciNoRgb.range = Option.some (0, 1) ∧
    ciNoRgb.rgb = Option.none ∧
    (emitColor tbMissing.text tbMissing.font_size_pt tbMissing.font_family
      tbMissing.is_bold ciNoRgb).1 = Option.some runNoRgb ∧
    (∃ r : Run,
      (emitColor tbMissing.text tbMissing.font_size_pt tbMissing.font_family
        tbMissing.is_bold ciMissing).1 = Option.some r ∧
      r ∈ composeRuns tbMissing ∧
      r.text = tbMissing.text ∧
      (ciMissing.rgb = Option.none → r.rgb = (0, 0, 0)) ∧
      r.font_size_pt = tbMissing.font_size_pt ∧ r.font_family = tbMissing.font_family ∧
      r.is_bold = tbMissing.is_bold) ∧
    (runNoRgb.rgb = (0, 0, 0) ∧ runNoRgb ∈ composeRuns tbMissing ∧
      runNoRgb.font_size_pt = tbMissing.font_size_pt ∧
      runNoRgb.font_family = tbMissing.font_family ∧
      runNoRgb.is_bold = tbMissing.is_bold) :=
  ⟨by decide, by decide, by decide, rfl, rfl, rfl, by decide,
   (c10_missing_fields tbMissing ciMissing (by decide) (by decide)).1 rfl,
   (c10_missing_fields tbMissing ciNoRgb (by decide) (by decide)).2 rfl runNoRgb (by decide)⟩

/-- Concrete block with an inverted color range: text `"AB"` with the
single range `[2, 1]` (`start > end`). -/
def tbInv : TextBlockV :=
  { text := ['A', 'B'], font_size_pt := 12, font_family := "Roboto", is_bold := false,
    colors := [{ range := Option.some (2, 1), rgb := Option.some (0, 0, 0) }] }

/-- C2 (counterexample): for the block `tbInv`, whose single range has
`start = 2 > end = 1`, the empty slice emits no run but still advances
`covered` to 1, so the final fallback run is only `text[1:] = "B"` and
the character `'A'` of the text is dropped from the emitted runs. -/
theorem c2_no_drop_cex :
    'A' ∈ tbInv.text ∧ 'A' ∉ concatRuns (composeRuns tbInv) := by
  decide

/-- The normalized→pixel conversion used to build text-region pixel
boxes (lines 485-488): `px = int(nx / 1000 * dim)`, with Python `int()`
truncation; the same map is applied to x/w with the image width and to
y/h with the image height. -/
def toPixel (nx : ℚ) (dim : Nat) : Int :=
  pyInt (nx / 1000 * dim)

theorem pyInt_eq_floor (q : ℚ) (h : 0 ≤ q) : pyInt q = ⌊q⌋ := by
  unfold pyInt
  rw [Rat.floor_def]
  exact Int.tdiv_eq_ediv (Rat.num_nonneg.mpr h) (Int.ofNat_nonneg _)

/-- C3 (amended): for every nonnegative normalized coordinate the
normalized→pixel conversion is the floor (truncation) of
`nx/1000 * dim`, i.e. `int(...)`, not rounding to nearest. -/
theorem c3_truncation_amended (nx : ℚ) (dim : Nat) (h : 0 ≤ nx) :
    toPixel nx dim = ⌊nx / 1000 * (dim : ℚ)⌋ := by
  unfold toPixel
  exact pyInt_eq_floor _ (by positivity)

theorem c3_truncation_witness :
    (0 : ℚ) ≤ 7 ∧ toPixel 7 250 = ⌊(7 : ℚ) / 1000 * (250 : ℚ)⌋ :=
  ⟨by norm_num, c3_truncation_amended 7 250 (by norm_num)⟩

/-- C3 (counterexample): at `nx = 7` and image dimension 250 the exact
value is `7/4 = 1.75`; the code's conversion yields `int(1.75) = 1`
while rounding to nearest would yield 2, so the conversion is not
`round(nx/1000 * image_width)`. -/
theorem c3_truncation_cex : toPixel 7 250 ≠ round ((7 : ℚ) / 1000 * 250) := by
  have hq : (7 / 1000 * ((250 : Nat) : ℚ) : ℚ) = 7 / 4 := by norm_num
  have h1 : toPixel 7 250 = 1 := by
    unfold toPixel pyInt
    rw [hq]
    have hn : (7 / 4 : ℚ).num = 7 := by norm_num
    have hd : (7 / 4 : ℚ).den = 4 := by norm_num
    rw [hn, hd]
    decide
  have h2 : round ((7 : ℚ) / 1000 * 250) = 2 := by
    norm_num [round_eq]
  rw [h1, h2]
  decide

/-- A text-region pixel box `(px, py, px + pw, py + ph)` as built on
line 489. -/
structure TextRegion where
  x1 : Int
  y1 : Int
  x2 : Int
  y2 : Int
deriving DecidableEq, Repr

/-- A contour as the extractor sees it: its `cv2.contourArea` and its
`cv2.boundingRect` box. -/
structure Contour where
  area : ℚ
  x : Int
  y : Int
  w : Int
  h : Int
deriving DecidableEq, Repr

/-- The text-overlap test of lines 501-510 for one text region: positive
intersection and overlap fraction above 0.3.  The source compares
`overlap / (w*h) > 0.3` in floating point on integer operands; on the
operand magnitudes a raster image can produce this float comparison
coincides with the exact inequality `10 * overlap > 3 * (w*h)`, which is
the form embedded here. -/
def textOverlapB (c : Contour) (t : TextRegion) : Bool :=
  let ox1 := max c.x t.x1
  let oy1 := max c.y t.y1
  let ox2 := min (c.x + c.w) t.x2
  let oy2 := min (c.y + c.h) t.y2
  decide (ox1 < ox2) && decide (oy1 < oy2) &&
    decide (3 * (c.w * c.h) < 10 * ((ox2 - ox1) * (oy2 - oy1)))

/-- `is_text_area` (lines 500-510): the contour overlaps some declared
text region by more than the 0.3 fraction. -/
def isTextArea (c : Contour) (tr : List TextRegion) : Bool :=
  tr.any (fun t => textOverlapB c t)

/-- A graphic region as placed on the slide: its pixel bounding box and
its page-unit placement box (lines 524-530). -/
structure Placed where
  x : Int
  y : Int
  w : Int
  h : Int
  leftPt : ℚ
  topPt : ℚ
  widthPt : ℚ
  heightPt : ℚ
deriving DecidableEq, Repr

/-- The Graphic Region Extractor filter and placement (lines 492-530):
drop contours with area below 1000, drop contours classified as
text-owned, and map the survivors to page-unit placement boxes. -/
def extractGraphics (imgW imgH : Nat) (pw ph : ℚ) (cs : List Contour)
    (tr : List TextRegion) : List Placed :=
  (cs.filter (fun c => decide ((1000 : ℚ) ≤ c.area) && ! isTextArea c tr)).map
    (fun c =>
      { x := c.x, y := c.y, w := c.w, h := c.h,
        leftPt := (c.x : ℚ) / (imgW : ℚ) * pw,
        topPt := (c.y : ℚ) / (imgH : ℚ) * ph,
        widthPt := (c.w : ℚ) / (imgW : ℚ) * pw,
        heightPt := (c.h : ℚ) / (imgH : ℚ) * ph })

/-- C4: the Graphic Region Extractor never places a region whose pixel
bounding box overlaps any declared text region by a fraction (overlap
area over the contour box's own area) strictly greater than 0.3: every
placed region's fraction is at most 3/10 against every text region it
intersects. -/
theorem c4_overlap_invariant (imgW imgH : Nat) (pw ph : ℚ) (cs : List Contour)
    (tr : List TextRegion) (g : Placed)
    (hg : g ∈ extractGraphics imgW imgH pw ph cs tr) (t : TextRegion) (ht : t ∈ tr)
    (hx : max g.x t.x1 < min (g.x + g.w) t.x2)
    (hy : max g.y t.y1 < min (g.y + g.h) t.y2) :
    (((min (g.x + g.w) t.x2 - max g.x t.x1) *
      (min (g.y + g.h) t.y2 - max g.y t.y1) : Int) : ℚ)
      / ((g.w : ℚ) * (g.h : ℚ)) ≤ 3 / 10 := by
  obtain ⟨c, hcmem, hceq⟩ := List.mem_map.mp hg
  have hgx : g.x = c.x := by rw [← hceq]
  have hgy : g.y = c.y := by rw [← hceq]
  have hgw : g.w = c.w := by rw [← hceq]
  have hgh : g.h = c.h := by rw [← hceq]
  simp only [hgx, hgy, hgw, hgh] at hx hy ⊢
  obtain ⟨-, hpred⟩ := List.mem_filter.mp hcmem
  rw [Bool.and_eq_true] at hpred
  have hnot : isTextArea c tr = false := by
    rcases hpred with ⟨-, hn⟩
    simpa using hn
  have hone : textOverlapB c t = false := by
    have h := List.any_eq_false.mp hnot t ht
    simpa using h
  have hle : 10 * ((min (c.x + c.w) t.x2 - max c.x t.x1) *
      (min (c.y + c.h) t.y2 - max c.y t.y1)) ≤ 3 * (c.w * c.h) := by
    by_contra hgt
    push_neg at hgt
    have htrue : textOverlapB c t = true := by
      simp only [textOverlapB, Bool.and_eq_true, decide_eq_true_eq]
      exact ⟨⟨hx, hy⟩, hgt⟩
    rw [htrue] at hone
    exact absurd hone (by decide)
  have hw : (0 : Int) < c.w := by
    have h1 : c.x ≤ max c.x t.x1 := le_max_left _ _
    have h2 : min (c.x + c.w) t.x2 ≤ c.x + c.w := min_le_left _ _
    omega
  have hh : (0 : Int) < c.h := by
    have h1 : c.y ≤ max c.y t.y1 := le_max_left _ _
    have h2 : min (c.y + c.h) t.y2 ≤ c.y + c.h := min_le_left _ _
    omega
  have hwq : (0 : ℚ) < (c.w : ℚ) * (c.h : ℚ) := by
    have hp : (0 : Int) < c.w * c.h := mul_pos hw hh
    exact_mod_cast hp
  rw [div_le_div_iff₀ hwq (by norm_num : (0 : ℚ) < 10)]
  have hcast : ((10 * ((min (c.x + c.w) t.x2 - max c.x t.x1) *
      (min (c.y + c.h) t.y2 - max c.y t.y1)) : Int) : ℚ)
      ≤ ((3 * (c.w * c.h) : Int) : ℚ) := by
    exact_mod_cast hle
  push_cast at hcast ⊢
  linarith

/-- Concrete data for the C4 witness: one text region and one contour
that survives the filter while overlapping the region by fraction
20/100 = 0.2. -/
def trW : TextRegion := { x1 := 0, y1 := 0, x2 := 10, y2 := 10 }

def cW : Contour := { area := 2000, x := 8, y := 0, w := 10, h := 10 }

/-- The placement the extractor produces for `cW`. -/
def gW : Placed :=
  { x := cW.x, y := cW.y, w := cW.w, h := cW.h,
    leftPt := (cW.x : ℚ) / ((100 : Nat) : ℚ) * 500,
    topPt := (cW.y : ℚ) / ((100 : Nat) : ℚ) * 500,
    widthPt := (cW.w : ℚ) / ((100 : Nat) : ℚ) * 500,
    heightPt := (cW.h : ℚ) / ((100 : Nat) : ℚ) * 500 }

theorem c4_overlap_witness :
    gW ∈ extractGraphics 100 100 500 500 [cW] [trW] ∧
    trW ∈ [trW] ∧
    max gW.x trW.x1 < min (gW.x + gW.w) trW.x2 ∧
    max gW.y trW.y1 < min (gW.y + gW.h) trW.y2 ∧
    (((min (gW.x + gW.w) trW.x2 - max gW.x trW.x1) *
      (min (gW.y + gW.h) trW.y2 - max gW.y trW.y1) : Int) : ℚ)
      / ((gW.w : ℚ) * (gW.h : ℚ)) ≤ 3 / 10 := by
  have hmem : cW ∈ List.filter
      (fun c => decide ((1000 : ℚ) ≤ c.area) && ! isTextArea c [trW]) [cW] :=
    List.mem_filter.mpr ⟨List.mem_singleton.mpr rfl, by decide⟩
  have hg : gW ∈ extractGraphics 100 100 500 500 [cW] [trW] :=
    List.mem_map.mpr ⟨cW, hmem, rfl⟩
  exact ⟨hg, List.mem_singleton.mpr rfl, by decide, by decide,
    c4_overlap_invariant 100 100 500 500 [cW] [trW] gW hg trW
      (List.mem_singleton.mpr rfl) (by decide) (by decide)⟩

/-- A PIL image: pixel dimensions and a pixel accessor returning the
channel values at a coordinate. -/
structure PILImage where
  width : Nat
  height : Nat
  pix : Nat → Nat → List Nat

def indexErrorMsg : String := "IndexError: image index out of range"

/-- `Image.getpixel((x, y))`: a negative coordinate has the dimension
added once; a coordinate still outside the image raises `IndexError`. -/
def getpixelE (img : PILImage) (x y : Int) : Except String (List Nat) :=
  let x1 := if x < 0 then x + img.width else x
  let y1 := if y < 0 then y + img.height else y
  if 0 ≤ x1 ∧ x1 < (img.width : Int) ∧ 0 ≤ y1 ∧ y1 < (img.height : Int) then
    Except.ok (img.pix x1.toNat y1.toNat)
  else
    Except.error indexErrorMsg

/-- `s[:3] if len(s) > 3 else s` (line 429): discard an alpha channel. -/
def stripAlpha (s : List Nat) : List Nat :=
  if 3 < s.length then s.take 3 else s

/-- Number of occurrences of `a` in `l` — the count a Python `Counter`
assigns to key `a`. -/
def countOcc {α : Type} [DecidableEq α] (l : List α) (a : α) : Nat :=
  (l.filter (fun b => decide (b = a))).length

/-- The distinct values of `l` in order of first occurrence — the key
order of a Python `Counter` built by inserting the elements of `l`. -/
def firstOccurrences {α : Type} [DecidableEq α] : List α → List α
  | [] => []
  | a :: rest => a :: firstOccurrences (rest.filter (fun b => decide (¬ b = a)))
termination_by l => l.length
decreasing_by
  simp only [List.length_cons]
  exact Nat.lt_succ_of_le (List.length_filter_le _ _)

/-- First element with maximal count, scanning left to right and keeping
the earlier element on ties. -/
def pickFirstMax {α : Type} (cnt : α → Nat) : List α → Option α
  | [] => Option.none
  | a :: rest =>
    match pickFirstMax cnt rest with
    | Option.none => Option.some a
    | Option.some b => if cnt a < cnt b then Option.some b else Option.some a

/-- `Counter(samples).most_common(1)[0][0]`: the key with the largest
count; `most_common` sorts the insertion-ordered keys stably by
descending count, so ties are broken by first-encountered order. -/
def mostCommon {α : Type} [DecidableEq α] (l : List α) : Option α :=
  pickFirstMax (countOcc l) (firstOccurrences l)

/-- `get_background_color` (lines 421-430): sample the four corner
pixels at a fixed inward offset, strip any alpha channel, and return the
most frequent of the four samples. -/
def get_background_color (img : PILImage) : Except String (List Nat) := do
  let s1 ← getpixelE img 10 10
  let s2 ← getpixelE img ((img.width : Int) - 11) 10
  let s3 ← getpixelE img 10 ((img.height : Int) - 11)
  let s4 ← getpixelE img ((img.width : Int) - 11) ((img.height : Int) - 11)
  match mostCommon [stripAlpha s1, stripAlpha s2, stripAlpha s3, stripAlpha s4] with
  | Option.some c => Except.ok c
  | Option.none => Except.error indexErrorMsg

/-- The four stripped corner samples in sampling order (the values the
four `getpixel` calls return when both dimensions are at least 11). -/
def cornerSamples (img : PILImage) : List (List Nat) :=
  [stripAlpha (img.pix 10 10),
   stripAlpha (img.pix (img.width - 11) 10),
   stripAlpha (img.pix 10 (img.height - 11)),
   stripAlpha (img.pix (img.width - 11) (img.height - 11))]

theorem firstOccurrences_cons {α : Type} [DecidableEq α] (x : α) (rest : List α) :
    firstOccurrences (x :: rest)
      = x :: firstOccurrences (rest.filter (fun b => decide (¬ b = x))) := by
  rw [firstOccurrences]

theorem pickFirstMax_spec {α : Type} (cnt : α → Nat) :
    ∀ (l : List α), l ≠ [] →
    ∃ a l₁ l₂, pickFirstMax cnt l = Option.some a ∧ l = l₁ ++ a :: l₂ ∧
      (∀ b ∈ l₁, cnt b < cnt a) ∧ (∀ b ∈ l, cnt b ≤ cnt a) := by
  intro l
  induction l with
  | nil => intro h; exact absurd rfl h
  | cons x rest ih =>
    intro _
    by_cases hr : rest = []
    · subst hr
      exact ⟨x, [], [], rfl, rfl, by simp, by simp⟩
    · obtain ⟨a, l₁, l₂, hpick, hdec, hstrict, hall⟩ := ih hr
      by_cases hlt : cnt x < cnt a
      · refine ⟨a, x :: l₁, l₂, ?_, by rw [hdec]; rfl, ?_, ?_⟩
        · simp [pickFirstMax, hpick, hlt]
        · intro b hb
          rcases List.mem_cons.mp hb with hbe | hbm
          · subst hbe; exact hlt
          · exact hstrict b hbm
        · intro b hb
          rcases List.mem_cons.mp hb with hbe | hbm
          · subst hbe; exact le_of_lt hlt
          · exact hall b hbm
      · refine ⟨x, [], rest, ?_, rfl, by simp, ?_⟩
        · simp [pickFirstMax, hpick, hlt]
        · intro b hb
          rcases List.mem_cons.mp hb with hbe | hbm
          · subst hbe; exact le_rfl
          · exact le_trans (hall b hbm) (not_lt.mp hlt)

theorem mem_firstOccurrences {α : Type} [DecidableEq α] :
    ∀ (l : List α) (a : α), a ∈ firstOccurrences l ↔ a ∈ l := by
  intro l
  induction l using firstOccurrences.induct with
  | case1 => intro a; simp [firstOccurrences]
  | case2 x rest ih =>
    intro a
    rw [firstOccurrences_cons]
    constructor
    · intro h
      rcases List.mem_cons.mp h with he | hm
      · exact he ▸ List.mem_cons_self _ _
      · have := (ih a).mp hm
        exact List.mem_cons_of_mem _ (List.mem_filter.mp this).1
    · intro h
      rcases List.mem_cons.mp h with he | hm
      · exact he ▸ List.mem_cons_self _ _
      · by_cases hax : a = x
        · exact hax ▸ List.mem_cons_self _ _
        · refine List.mem_cons_of_mem _ ((ih a).mpr ?_)
          exact List.mem_filter.mpr ⟨hm, by simpa using hax⟩

theorem firstOccurrences_nodup {α : Type} [DecidableEq α] :
    ∀ (l : List α), (firstOccurrences l).Nodup := by
  intro l
  induction l using firstOccurrences.induct with
  | case1 => simp [firstOccurrences]
  | case2 x rest ih =>
    rw [firstOccurrences_cons]
    refine List.nodup_cons.mpr ⟨?_, ih⟩
    intro hx
    have := (mem_firstOccurrences _ x).mp hx
    simpa using (List.mem_filter.mp this).2

theorem first_occurrence_decomp {α : Type} [DecidableEq α] :
    ∀ (l : List α) (a : α), a ∈ l → ∃ p s, l = p ++ a :: s ∧ a ∉ p := by
  intro l
  induction l with
  | nil => intro a h; exact absurd h (List.not_mem_nil _)
  | cons x rest ih =>
    intro a h
    by_cases hax : a = x
    · exact ⟨[], rest, by simp [hax], List.not_mem_nil _⟩
    · have hm : a ∈ rest := by
        rcases List.mem_cons.mp h with he | hm
        · exact absurd he hax
        · exact hm
      obtain ⟨p, s, hdec, hnp⟩ := ih a hm
      refine ⟨x :: p, s, by rw [hdec]; rfl, ?_⟩
      intro hc
      rcases List.mem_cons.mp hc with he | hmp
      · exact hax he
      · exact hnp hmp

theorem firstOccurrences_before {α : Type} [DecidableEq α] :
    ∀ (l : List α), ∀ (p s : List α) (b c : α), l = p ++ b :: s → b ∉ p → c ∉ p →
    c ∈ s → b ≠ c →
    ∃ q r, firstOccurrences l = q ++ c :: r ∧ b ∈ q := by
  intro l
  induction l using firstOccurrences.induct with
  | case1 =>
    intro p s b c hdec _ _ _ _
    exact absurd hdec (by simp)
  | case2 x rest ih =>
    intro p s b c hdec hbp hcp hcs hbc
    rw [firstOccurrences_cons]
    cases p with
    | nil =>
      simp only [List.nil_append, List.cons.injEq] at hdec
      obtain ⟨hxb, hrest⟩ := hdec
      have hcf : c ∈ rest.filter (fun b => decide (¬ b = x)) := by
        refine List.mem_filter.mpr ⟨hrest ▸ hcs, ?_⟩
        simp [hxb ▸ hbc.symm]
      have hcfo : c ∈ firstOccurrences (rest.filter (fun b => decide (¬ b = x))) :=
        (mem_firstOccurrences _ c).mpr hcf
      obtain ⟨q', r', hqr⟩ := List.append_of_mem hcfo
      refine ⟨x :: q', r', by rw [hqr]; simp, ?_⟩
      exact hxb ▸ List.mem_cons_self _ _
    | cons x1 p1 =>
      simp only [List.cons_append, List.cons.injEq] at hdec
      obtain ⟨hx1, hrest⟩ := hdec
      have hbx : b ≠ x := by
        intro he
        exact hbp (by simp [hx1, he])
      have hcx : c ≠ x := by
        intro he
        exact hcp (by simp [hx1, he])
      have hbp1 : b ∉ p1 := fun hm => hbp (List.mem_cons_of_mem _ hm)
      have hcp1 : c ∉ p1 := fun hm => hcp (List.mem_cons_of_mem _ hm)
      have hfil : rest.filter (fun b => decide (¬ b = x))
          = (p1.filter (fun b => decide (¬ b = x))) ++ b ::
            (s.filter (fun b => decide (¬ b = x))) := by
        rw [hrest, List.filter_append]
        congr 1
        rw [List.filter_cons_of_pos (by simpa using hbx)]
      obtain ⟨q, r, hfo, hbq⟩ := ih (p1.filter (fun b => decide (¬ b = x)))
        (s.filter (fun b => decide (¬ b = x))) b c hfil
        (fun hm => hbp1 (List.mem_filter.mp hm).1)
        (fun hm => hcp1 (List.mem_filter.mp hm).1)
        (List.mem_filter.mpr ⟨hcs, by simpa using hcx⟩) hbc
      exact ⟨x :: q, r, by rw [hfo]; rfl, List.mem_cons_of_mem _ hbq⟩

theorem nodup_middle_unique {α : Type} (a : α) :
    ∀ (u v u1 v1 : List α), (u ++ a :: v).Nodup → u ++ a :: v = u1 ++ a :: v1 →
    u = u1 := by
  intro u
  induction u with
  | nil =>
    intro v u1 v1 hnd heq
    cases u1 with
    | nil => rfl
    | cons y u2 =>
      exfalso
      simp only [List.nil_append, List.cons_append, List.cons.injEq] at heq
      obtain ⟨hay, hv⟩ := heq
      simp only [List.nil_append] at hnd
      have hmem : a ∈ v := by
        rw [hv]
        exact List.mem_append_right _ (List.mem_cons_self _ _)
      exact (List.nodup_cons.mp hnd).1 hmem
  | cons y u2 ih =>
    intro v u1 v1 hnd heq
    cases u1 with
    | nil =>
      exfalso
      simp only [List.cons_append, List.nil_append, List.cons.injEq] at heq
      obtain ⟨hya, hrest⟩ := heq
      simp only [List.cons_append] at hnd
      have hmem : a ∈ u2 ++ a :: v := List.mem_append_right _ (List.mem_cons_self _ _)
      have hy := (List.nodup_cons.mp hnd).1
      rw [hya] at hy
      exact hy hmem
    | cons y1 u3 =>
      simp only [List.cons_append, List.cons.injEq] at heq
      obtain ⟨hyy, hrest⟩ := heq
      have hnd2 : (u2 ++ a :: v).Nodup := by
        simp only [List.cons_append] at hnd
        exact (List.nodup_cons.mp hnd).2
      rw [hyy, ih v u3 v1 hnd2 hrest]

theorem mostCommon_spec {α : Type} [DecidableEq α] (l : List α) (hl : l ≠ []) :
    ∃ c, mostCommon l = Option.some c ∧ c ∈ l ∧
      (∀ b ∈ l, countOcc l b ≤ countOcc l c) ∧
      ∃ l₁ l₂, l = l₁ ++ c :: l₂ ∧ ∀ b ∈ l₁, countOcc l b < countOcc l c := by
  have hfo : firstOccurrences l ≠ [] := by
    cases l with
    | nil => exact absurd rfl hl
    | cons x rest =>
      rw [firstOccurrences_cons]
      exact List.cons_ne_nil _ _
  obtain ⟨a, k₁, k₂, hpick, hdec, hstrict, hall⟩ :=
    pickFirstMax_spec (countOcc l) (firstOccurrences l) hfo
  have hmem : a ∈ l := (mem_firstOccurrences l a).mp
    (hdec ▸ List.mem_append_right _ (List.mem_cons_self _ _))
  obtain ⟨p, s, hps, hap⟩ := first_occurrence_decomp l a hmem
  refine ⟨a, ?_, hmem, ?_, p, s, hps, ?_⟩
  · unfold mostCommon
    rw [hpick]
  · intro b hb
    exact hall b ((mem_firstOccurrences l b).mpr hb)
  · intro b hb
    have hba : b ≠ a := fun he => hap (he ▸ hb)
    obtain ⟨u, v, hpuv, hbu⟩ := first_occurrence_decomp p b hb
    have hldec : l = u ++ b :: (v ++ a :: s) := by
      rw [hps, hpuv]
      simp
    have hau : a ∉ u := fun hm => hap (hpuv ▸ List.mem_append_left _ hm)
    have has : a ∈ v ++ a :: s := List.mem_append_right _ (List.mem_cons_self _ _)
    obtain ⟨q, r, hfo2, hbq⟩ :=
      firstOccurrences_before l u (v ++ a :: s) b a hldec hbu hau has hba
    have hnd : (firstOccurrences l).Nodup := firstOccurrences_nodup l
    have hqk : q = k₁ := by
      refine nodup_middle_unique a q r k₁ k₂ (hfo2 ▸ hnd) ?_
      rw [← hfo2, hdec]
    exact hstrict b (hqk ▸ hbq)

theorem getpixelE_ok (img : PILImage) (x y : Int) (hx0 : 0 ≤ x)
    (hx : x < (img.width : Int)) (hy0 : 0 ≤ y) (hy : y < (img.height : Int)) :
    getpixelE img x y = Except.ok (img.pix x.toNat y.toNat) := by
  simp only [getpixelE]
  rw [if_neg (not_lt.mpr hx0), if_neg (not_lt.mpr hy0), if_pos ⟨hx0, hx, hy0, hy⟩]

theorem gbc_eq_mostCommon (img : PILImage) (hw : 11 ≤ img.width) (hh : 11 ≤ img.height) :
    get_background_color img
      = match mostCommon (cornerSamples img) with
        | Option.some c => Except.ok c
        | Option.none => Except.error indexErrorMsg := by
  have ew : ((img.width : Int) - 11).toNat = img.width - 11 := by omega
  have eh : ((img.height : Int) - 11).toNat = img.height - 11 := by omega
  have e1 : getpixelE img 10 10 = Except.ok (img.pix 10 10) := by
    rw [getpixelE_ok img 10 10 (by norm_num) (by omega) (by norm_num) (by omega)]
    congr 1
  have e2 : getpixelE img ((img.width : Int) - 11) 10
      = Except.ok (img.pix (img.width - 11) 10) := by
    rw [getpixelE_ok img _ 10 (by omega) (by omega) (by norm_num) (by omega), ew]
    congr 1
  have e3 : getpixelE img 10 ((img.height : Int) - 11)
      = Except.ok (img.pix 10 (img.height - 11)) := by
    rw [getpixelE_ok img 10 _ (by norm_num) (by omega) (by omega) (by omega), eh]
    congr 1
  have e4 : getpixelE img ((img.width : Int) - 11) ((img.height : Int) - 11)
      = Except.ok (img.pix (img.width - 11) (img.height - 11)) := by
    rw [getpixelE_ok img _ _ (by omega) (by omega) (by omega) (by omega), ew, eh]
  unfold get_background_color
  rw [e1, e2, e3, e4]
  rfl

/-- C6 (amended): when both image dimensions are at least 11 pixels the
Background Estimator returns a value without failing: it samples the
four corner pixels at the fixed inward offset, strips any alpha channel,
and returns the most frequent of the four sampled colors, ties broken by
first-encountered order (before the returned color's first occurrence,
every sample has a strictly smaller count). -/
theorem c6_corner_sampling_amended (img : PILImage) (hw : 11 ≤ img.width)
    (hh : 11 ≤ img.height) :
    ∃ c, get_background_color img = Except.ok c ∧ c ∈ cornerSamples img ∧
      (∀ d ∈ cornerSamples img,
        countOcc (cornerSamples img) d ≤ countOcc (cornerSamples img) c) ∧
      ∃ l₁ l₂, cornerSamples img = l₁ ++ c :: l₂ ∧
        ∀ d ∈ l₁, countOcc (cornerSamples img) d < countOcc (cornerSamples img) c := by
  obtain ⟨c, hmc, hmem, hmax, hfirst⟩ :=
    mostCommon_spec (cornerSamples img) (by simp [cornerSamples])
  refine ⟨c, ?_, hmem, hmax, hfirst⟩
  rw [gbc_eq_mostCommon img hw hh, hmc]

/-- Concrete image for the C6 witness: 11×11 with RGBA pixels. -/
def imgOkW : PILImage := { width := 11, height := 11, pix := fun _ _ => [7, 7, 7, 255] }

theorem c6_corner_sampling_witness :
    11 ≤ imgOkW.width ∧ 11 ≤ imgOkW.height ∧
    ∃ c, get_background_color imgOkW = Except.ok c ∧ c ∈ cornerSamples imgOkW ∧
      (∀ d ∈ cornerSamples imgOkW,
        countOcc (cornerSamples imgOkW) d ≤ countOcc (cornerSamples imgOkW) c) ∧
      ∃ l₁ l₂, cornerSamples imgOkW = l₁ ++ c :: l₂ ∧
        ∀ d ∈ l₁, countOcc (cornerSamples imgOkW) d < countOcc (cornerSamples imgOkW) c :=
  ⟨by decide, by decide, c6_corner_sampling_amended imgOkW (by decide) (by decide)⟩

/-- Concrete image for the C6 counterexample: a single-pixel image. -/
def imgTiny : PILImage := { width := 1, height := 1, pix := fun _ _ => [255, 255, 255] }

/-- C6 (counterexample): on a 1×1 image — which has at least one pixel —
the first corner sample `getpixel((10, 10))` is out of range, so
`get_background_color` raises `IndexError` instead of returning a value;
the claim's "no failure mode for any image with at least one pixel"
fails (the code needs both dimensions ≥ 11). -/
theorem c6_small_image_cex :
    1 ≤ imgTiny.width ∧ 1 ≤ imgTiny.height ∧
    get_background_color imgTiny = Except.error indexErrorMsg := by
  refine ⟨by decide, by decide, ?_⟩
  rfl

/-- A text block as delivered in the page JSON: each field may be
missing, and a present `bbox_1000` may have the wrong number of
entries. -/
structure RawBlock where
  text : Option (List Char)
  bbox_1000 : Option (List ℚ)
  font_family : Option String
  is_bold : Option Bool
  font_size_pt : Option ℚ
  colors : Option (List ColorInfo)

/-- Whether a present `bbox_1000` can be unpacked as `nx, ny, nw, nh`. -/
def bboxOk (b : RawBlock) : Bool :=
  match b.bbox_1000 with
  | Option.none => true
  | Option.some l => decide (l.length = 4)

def valueErrorMsg : String := "ValueError: cannot unpack bbox_1000"

/-- One iteration of the text-region loop (lines 482-489): a block with
a `bbox_1000` is unpacked — raising `ValueError` when it does not have
exactly four entries — and mapped to a pixel box with `int()`
truncation. -/
def textRegionStep (imgW imgH : Nat) (acc : List TextRegion) (b : RawBlock) :
    Except String (List TextRegion) :=
  match b.bbox_1000 with
  | Option.none => Except.ok acc
  | Option.some [nx, ny, nw, nh] =>
      let px := toPixel nx imgW
      let py := toPixel ny imgH
      let pw := toPixel nw imgW
      let ph := toPixel nh imgH
      Except.ok (acc ++ [{ x1 := px, y1 := py, x2 := px + pw, y2 := py + ph }])
  | Option.some _ => Except.error valueErrorMsg

/-- The text-region accumulation loop over all blocks. -/
def textRegionsE (blocks : List RawBlock) (imgW imgH : Nat) :
    Except String (List TextRegion) :=
  blocks.foldlM (textRegionStep imgW imgH) []

/-- A text box placed on the slide: its page-unit box and styled runs. -/
structure TextBox where
  left : ℚ
  top : ℚ
  width : ℚ
  height : ℚ
  runs : List Run
deriving DecidableEq, Repr

/-- The per-block text step (lines 535-602): skip empty or missing
text, skip a missing bbox, raise on a malformed bbox, map to page
units, apply the degenerate-size clamps, and compose the runs with the
source's field defaults. -/
def processBlock (pw ph : ℚ) (b : RawBlock) : Except String (Option TextBox) :=
  if b.text.getD [] = [] then Except.ok Option.none
  else
    match b.bbox_1000 with
    | Option.none => Except.ok Option.none
    | Option.some [nx, ny, nw, nh] =>
        let widthPt0 := nw / 1000 * pw
        let heightPt0 := nh / 1000 * ph
        Except.ok (Option.some
          { left := nx / 1000 * pw, top := ny / 1000 * ph,
            width := if widthPt0 < 10 then 50 else widthPt0,
            height := if heightPt0 < 10 then 30 else heightPt0,
            runs := composeRuns
              { text := b.text.getD [], font_size_pt := b.font_size_pt.getD 12,
                font_family := b.font_family.getD "Roboto",
                is_bold := b.is_bold.getD false, colors := b.colors.getD [] } })
    | Option.some _ => Except.error valueErrorMsg

/-- One iteration of the text loop: append the block's text box when it
produced one. -/
def textBoxStep (pw ph : ℚ) (acc : List TextBox) (b : RawBlock) :
    Except String (List TextBox) := do
  let tb? ← processBlock pw ph b
  match tb? with
  | Option.none => Except.ok acc
  | Option.some tb => Except.ok (acc ++ [tb])

/-- The text loop over all blocks, accumulating placed text boxes. -/
def textBoxesE (blocks : List RawBlock) (pw ph : ℚ) : Except String (List TextBox) :=
  blocks.foldlM (textBoxStep pw ph) []

/-- One reconstructed slide: background fill, placed graphic regions,
and placed text boxes. -/
structure Slide where
  background : List Nat
  graphics : List Placed
  textboxes : List TextBox

/-- The graphics section of the page loop (lines 466-532): skipped
entirely — zero regions — when `cv2.imdecode` failed; otherwise compute
the text regions (which can raise on a malformed bbox) and run the
extractor over the decoded image's contours. -/
def graphicsE (img : PILImage) (decoded : Option (List Contour))
    (blocks : List RawBlock) (pw ph : ℚ) : Except String (List Placed) :=
  match decoded with
  | Option.none => Except.ok []
  | Option.some cs => do
      let tr ← textRegionsE blocks img.width img.height
      Except.ok (extractGraphics img.width img.height pw ph cs tr)

/-- Per-page slide assembly (lines 441-602): estimate the background,
extract and place graphic regions when the page raster decoded
(`cv2.imdecode` yielding the page's contours), then place the text
boxes. -/
def processPage (img : PILImage) (decoded : Option (List Contour))
    (blocks : List RawBlock) (pw ph : ℚ) : Except String Slide := do
  let bg ← get_background_color img
  let gfx ← graphicsE img decoded blocks pw ph
  let tbs ← textBoxesE blocks pw ph
  Except.ok { background := bg, graphics := gfx, textboxes := tbs }

def exceptOk {ε α : Type} : Except ε α → Bool
  | Except.ok _ => true
  | Except.error _ => false

theorem except_bind_ok {ε α β : Type} (a : α) (f : α → Except ε β) :
    (Except.ok a >>= f : Except ε β) = f a := rfl

theorem except_bind_error {ε α β : Type} (e : ε) (f : α → Except ε β) :
    (Except.error e >>= f : Except ε β) = Except.error e := rfl

theorem textRegionStep_ok (imgW imgH : Nat) (acc : List TextRegion) (b : RawBlock)
    (hb : bboxOk b = true) : ∃ v, textRegionStep imgW imgH acc b = Except.ok v := by
  unfold textRegionStep
  unfold bboxOk at hb
  rcases hbb : b.bbox_1000 with _ | l
  · exact ⟨acc, rfl⟩
  · rw [hbb] at hb
    simp only [decide_eq_true_eq] at hb
    rcases l with _ | ⟨nx, l⟩
    · simp at hb
    rcases l with _ | ⟨ny, l⟩
    · simp at hb
    rcases l with _ | ⟨nw, l⟩
    · simp at hb
    rcases l with _ | ⟨nh, l⟩
    · simp at hb
    rcases l with _ | ⟨x5, l⟩
    · exact ⟨_, rfl⟩
    · simp at hb

theorem textRegionsE_ok (imgW imgH : Nat) :
    ∀ (blocks : List RawBlock), (∀ b ∈ blocks, bboxOk b = true) →
    ∀ acc, ∃ v, List.foldlM (textRegionStep imgW imgH) acc blocks = Except.ok v := by
  intro blocks
  induction blocks with
  | nil => intro _ acc; exact ⟨acc, rfl⟩
  | cons b bs ih =>
    intro h acc
    obtain ⟨v1, hv1⟩ := textRegionStep_ok imgW imgH acc b (h b (List.mem_cons_self _ _))
    obtain ⟨v2, hv2⟩ := ih (fun x hx => h x (List.mem_cons_of_mem _ hx)) v1
    refine ⟨v2, ?_⟩
    rw [List.foldlM_cons, hv1, except_bind_ok]
    exact hv2

theorem processBlock_ok (pw ph : ℚ) (b : RawBlock) (hb : bboxOk b = true) :
    ∃ v, processBlock pw ph b = Except.ok v := by
  unfold processBlock
  unfold bboxOk at hb
  by_cases ht : b.text.getD [] = []
  · rw [if_pos ht]
    exact ⟨_, rfl⟩
  · rw [if_neg ht]
    rcases hbb : b.bbox_1000 with _ | l
    · exact ⟨_, rfl⟩
    · rw [hbb] at hb
      simp only [decide_eq_true_eq] at hb
      rcases l with _ | ⟨nx, l⟩
      · simp at hb
      rcases l with _ | ⟨ny, l⟩
      · simp at hb
      rcases l with _ | ⟨nw, l⟩
      · simp at hb
      rcases l with _ | ⟨nh, l⟩
      · simp at hb
      rcases l with _ | ⟨x5, l⟩
      · exact ⟨_, rfl⟩
      · simp at hb

theorem textBoxesE_ok (pw ph : ℚ) :
    ∀ (blocks : List RawBlock), (∀ b ∈ blocks, bboxOk b = true) →
    ∀ acc, ∃ v, List.foldlM (textBoxStep pw ph) acc blocks = Except.ok v := by
  intro blocks
  induction blocks with
  | nil => intro _ acc; exact ⟨acc, rfl⟩
  | cons b bs ih =>
    intro h acc
    obtain ⟨v1, hv1⟩ := processBlock_ok pw ph b (h b (List.mem_cons_self _ _))
    have hstep : ∃ w, textBoxStep pw ph acc b = Except.ok w := by
      unfold textBoxStep
      rw [hv1, except_bind_ok]
      rcases v1 with _ | tb
      · exact ⟨acc, rfl⟩
      · exact ⟨acc ++ [tb], rfl⟩
    obtain ⟨w, hw⟩ := hstep
    obtain ⟨v2, hv2⟩ := ih (fun x hx => h x (List.mem_cons_of_mem _ hx)) w
    refine ⟨v2, ?_⟩
    rw [List.foldlM_cons, hw, except_bind_ok]
    exact hv2

theorem graphicsE_ok (img : PILImage) (decoded : Option (List Contour))
    (blocks : List RawBlock) (pw ph : ℚ) (hb : ∀ b ∈ blocks, bboxOk b = true) :
    ∃ v, graphicsE img decoded blocks pw ph = Except.ok v := by
  cases decoded with
  | none => exact ⟨[], rfl⟩
  | some cs =>
    obtain ⟨tr, htr⟩ := textRegionsE_ok img.width img.height blocks hb []
    refine ⟨extractGraphics img.width img.height pw ph cs tr, ?_⟩
    unfold graphicsE
    show (textRegionsE blocks img.width img.height >>= _) = _
    rw [show textRegionsE blocks img.width img.height = Except.ok tr from htr,
        except_bind_ok]

/-- C5 (amended): page reconstruction degrades gracefully for layouts
with missing fields — an absent `text`, `bbox_1000`, `font_family`,
`is_bold`, `font_size_pt` or `colors` never aborts the page, and the
slide is still produced (given an image large enough for corner
sampling); but a present `bbox_1000` that is not a 4-element sequence
raises an unpacking error that aborts the whole page. -/
theorem c5_graceful_amended (img : PILImage) (decoded : Option (List Contour))
    (blocks : List RawBlock) (pw ph : ℚ) (hw : 11 ≤ img.width) (hh : 11 ≤ img.height)
    (hb : ∀ b ∈ blocks, bboxOk b = true) :
    exceptOk (processPage img decoded blocks pw ph) = true := by
  obtain ⟨c, hmc, -, -, -⟩ := mostCommon_spec (cornerSamples img) (by simp [cornerSamples])
  have hbg : get_background_color img = Except.ok c := by
    rw [gbc_eq_mostCommon img hw hh, hmc]
  obtain ⟨tbs, htbs⟩ := textBoxesE_ok pw ph blocks hb []
  obtain ⟨gfx, hg⟩ := graphicsE_ok img decoded blocks pw ph hb
  unfold processPage
  rw [hbg, except_bind_ok, hg, except_bind_ok,
      show textBoxesE blocks pw ph = Except.ok tbs from htbs, except_bind_ok]
  rfl

/-- Concrete image and block data for the C5 theorems. -/
def imgStd : PILImage := { width := 20, height := 20, pix := fun _ _ => [255, 255, 255] }

/-- A block whose `bbox_1000` has only three entries. -/
def blkBadBbox : RawBlock :=
  { text := Option.some ['X'], bbox_1000 := Option.some [0, 0, 3],
    font_family := Option.none, is_bold := Option.none,
    font_size_pt := Option.none, colors := Option.none }

/-- A well-formed block and one with every optional field missing. -/
def blkGood : RawBlock :=
  { text := Option.some ['H', 'i'], bbox_1000 := Option.some [0, 0, 500, 100],
    font_family := Option.some "Roboto", is_bold := Option.some false,
    font_size_pt := Option.some 32, colors := Option.some [] }

def blkEmpty : RawBlock :=
  { text := Option.none, bbox_1000 := Option.none, font_family := Option.none,
    is_bold := Option.none, font_size_pt := Option.none, colors := Option.none }

theorem c5_graceful_witness :
    11 ≤ imgStd.width ∧ 11 ≤ imgStd.height ∧
    (∀ b ∈ [blkGood, blkEmpty], bboxOk b = true) ∧
    exceptOk (processPage imgStd Option.none [blkGood, blkEmpty] 1000 768) = true :=
  ⟨by decide, by decide, by decide,
   c5_graceful_amended imgStd Option.none [blkGood, blkEmpty] 1000 768
     (by decide) (by decide) (by decide)⟩

/-- C7: when the page raster fails to decode (`cv2.imdecode` returns
`None`), the Graphic Region Extractor contributes zero regions to the
slide, and text-box reconstruction proceeds unchanged — for any layout
whose bboxes are unpackable, the placed text boxes are identical to
those of a run with any decode result. -/
theorem c7_decode_failure (img : PILImage) (decoded : Option (List Contour))
    (blocks : List RawBlock) (pw ph : ℚ) :
    (∀ s, processPage img Option.none blocks pw ph = Except.ok s → s.graphics = []) ∧
    ((∀ b ∈ blocks, bboxOk b = true) →
      (processPage img decoded blocks pw ph).map Slide.textboxes
        = (processPage img Option.none blocks pw ph).map Slide.textboxes) := by
  constructor
  · intro s hs
    unfold processPage at hs
    cases hgb : get_background_color img with
    | error e =>
      rw [hgb, except_bind_error] at hs
      exact absurd hs (by simp)
    | ok bg =>
      rw [hgb, except_bind_ok,
          show graphicsE img Option.none blocks pw ph = Except.ok [] from rfl,
          except_bind_ok] at hs
      cases htb : textBoxesE blocks pw ph with
      | error e =>
        rw [htb, except_bind_error] at hs
        exact absurd hs (by simp)
      | ok tbs =>
        rw [htb, except_bind_ok] at hs
        injection hs with h
        rw [← h]
  · intro hb
    cases hgb : get_background_color img with
    | error e =>
      unfold processPage
      rw [hgb]
      simp only [except_bind_error]
    | ok bg =>
      obtain ⟨gv, hgv⟩ := graphicsE_ok img decoded blocks pw ph hb
      unfold processPage
      rw [hgb]
      simp only [except_bind_ok]
      rw [hgv, show graphicsE img Option.none blocks pw ph = Except.ok [] from rfl]
      simp only [except_bind_ok]
      cases htb : textBoxesE blocks pw ph with
      | error e => simp only [except_bind_error]
      | ok tbs =>
        simp only [except_bind_ok]
        rfl

theorem c7_decode_failure_witness :
    (∀ b ∈ [blkGood, blkEmpty], bboxOk b = true) ∧
    (processPage imgStd (Option.some [cW]) [blkGood, blkEmpty] 1000 768).map Slide.textboxes
      = (processPage imgStd Option.none [blkGood, blkEmpty] 1000 768).map Slide.textboxes :=
  ⟨by decide,
   (c7_decode_failure imgStd (Option.some [cW]) [blkGood, blkEmpty] 1000 768).2 (by decide)⟩

/-- C5 (counterexample): a page whose layout contains a block with a
3-element `bbox_1000` does not degrade gracefully: the unpacking
assignment raises and the page's slide is not produced (the whole page
processing returns an error). -/
theorem c5_graceful_cex :
    exceptOk (processPage imgStd Option.none [blkBadBbox] 1000 768) = false := by
  obtain ⟨c, hmc, -, -, -⟩ := mostCommon_spec (cornerSamples imgStd) (by simp [cornerSamples])
  have hbg : get_background_color imgStd = Except.ok c := by
    rw [gbc_eq_mostCommon imgStd (by decide) (by decide), hmc]
  unfold processPage
  rw [hbg, except_bind_ok,
      show graphicsE imgStd Option.none [blkBadBbox] 1000 768 = Except.ok [] from rfl,
      except_bind_ok,
      show textBoxesE [blkBadBbox] 1000 768 = Except.error valueErrorMsg from rfl,
      except_bind_error]
  rfl

/-- The page-unit box size a block's result received. -/
def sizeOfResult : Except String (Option TextBox) → Option (ℚ × ℚ)
  | Except.ok (Option.some tb) => Option.some (tb.width, tb.height)
  | _ => Option.none

/-- C9 (amended): the degenerate-size clamps of lines 550-553 act on
each dimension independently: a mapped width below 10 page units is
replaced by 50 and a mapped height below 10 by 30, while the other
dimension keeps its mapped value; only a block degenerate in both
dimensions gets the full 50×30 box. -/
theorem c9_min_size_amended (pw ph nx ny nw nh : ℚ) (b : RawBlock)
    (hbb : b.bbox_1000 = Option.some [nx, ny, nw, nh]) (ht : ¬ b.text.getD [] = []) :
    ∃ tb : TextBox, processBlock pw ph b = Except.ok (Option.some tb) ∧
      (nw / 1000 * pw < 10 → tb.width = 50) ∧
      (10 ≤ nw / 1000 * pw → tb.width = nw / 1000 * pw) ∧
      (nh / 1000 * ph < 10 → tb.height = 30) ∧
      (10 ≤ nh / 1000 * ph → tb.height = nh / 1000 * ph) := by
  unfold processBlock
  rw [if_neg ht, hbb]
  refine ⟨_, rfl, ?_, ?_, ?_, ?_⟩
  · intro h
    simp [if_pos h]
  · intro h
    simp [if_neg (not_lt.mpr h)]
  · intro h
    simp [if_pos h]
  · intro h
    simp [if_neg (not_lt.mpr h)]

/-- A block whose mapped width is degenerate (5 page units) while its
mapped height is not (500 page units). -/
def blkThin : RawBlock :=
  { text := Option.some ['X'], bbox_1000 := Option.some [0, 0, 5, 500],
    font_family := Option.none, is_bold := Option.none,
    font_size_pt := Option.none, colors := Option.none }

theorem c9_min_size_witness :
    blkThin.bbox_1000 = Option.some [0, 0, 5, 500] ∧ ¬ blkThin.text.getD [] = [] ∧
    ∃ tb : TextBox, processBlock 1000 768 blkThin = Except.ok (Option.some tb) ∧
      ((5 : ℚ) / 1000 * 1000 < 10 → tb.width = 50) ∧
      (10 ≤ (5 : ℚ) / 1000 * 1000 → tb.width = (5 : ℚ) / 1000 * 1000) ∧
      ((500 : ℚ) / 1000 * 768 < 10 → tb.height = 30) ∧
      (10 ≤ (500 : ℚ) / 1000 * 768 → tb.height = (500 : ℚ) / 1000 * 768) :=
  ⟨rfl, by decide, c9_min_size_amended 1000 768 0 0 5 500 blkThin rfl (by decide)⟩

/-- C9 (counterexample): for `blkThin`, whose mapped width 5 is below
the 10-unit floor but whose mapped height 500 is not, the resulting box
is 50×500 — not the claimed minimum readable box 50×30. -/
theorem c9_min_size_cex :
    (5 : ℚ) / 1000 * 1000 < 10 ∧
    sizeOfResult (processBlock 1000 1000 blkThin) ≠ Option.some (50, 30) := by
  constructor
  · norm_num
  · have hpb : sizeOfResult (processBlock 1000 1000 blkThin)
        = Option.some (if (5 : ℚ) / 1000 * 1000 < 10 then 50 else (5 : ℚ) / 1000 * 1000,
            if (500 : ℚ) / 1000 * 1000 < 10 then 30 else (500 : ℚ) / 1000 * 1000) := rfl
    rw [hpb, if_pos (by norm_num : (5 : ℚ) / 1000 * 1000 < 10),
        if_neg (by norm_num : ¬ (500 : ℚ) / 1000 * 1000 < 10)]
    have hne : (500 : ℚ) / 1000 * 1000 ≠ 30 := by norm_num
    simp [Prod.ext_iff, hne]

/-- The progress values written while rasterizing (line 283):
`int((page + 1) / total * 20)`, embedded as the exact floor
`(p + 1) * 20 / total` (float rounding of these small ratios is
monotone, so the written sequence is the same). -/
def rasterWrites (total : Nat) : List Nat :=
  (List.range total).map (fun p => (p + 1) * 20 / total)

/-- The progress values written while analyzing (line 297):
`20 + int(page / total * 40)` for pages `1..total`. -/
def analyzeWrites (total : Nat) : List Nat :=
  (List.range total).map (fun p => 20 + (p + 1) * 40 / total)

/-- The progress values written by the converter poll loop (line 371):
`progress = min(95, progress + 1)` once per poll. -/
def pollWrites : Nat → Nat → List Nat
  | 0, _ => []
  | k + 1, prev => min 95 (prev + 1) :: pollWrites k (min 95 (prev + 1))

/-- The sequence of values written to the job's progress percentage
during one execution of `process_pdf_with_gemini` that reaches the
converter: the rasterize writes (up to 20), the analyze writes (20-60),
the fixed 65 of line 328, the poll-loop writes (up to 95), then 100 on
success (line 380) or 0 written by the error handler (line 390). -/
def progressTrace (total polls : Nat) (success : Bool) : List Nat :=
  rasterWrites total ++ analyzeWrites total ++ 65 :: pollWrites polls 65
    ++ (if success then [100] else [0])

theorem chain_le_append_of_bounds (l₁ l₂ : List Nat) (m : Nat)
    (h₁ : List.Chain' (· ≤ ·) l₁) (h₂ : List.Chain' (· ≤ ·) l₂)
    (hb₁ : ∀ x ∈ l₁, x ≤ m) (hb₂ : ∀ y ∈ l₂, m ≤ y) :
    List.Chain' (· ≤ ·) (l₁ ++ l₂) := by
  rw [List.chain'_append]
  refine ⟨h₁, h₂, ?_⟩
  intro x hx y hy
  exact le_trans (hb₁ x (List.mem_of_mem_getLast? hx))
    (hb₂ y (List.mem_of_mem_head? hy))

theorem chain_le_map_range (f : Nat → Nat) (hf : ∀ i, f i ≤ f (i + 1)) (n : Nat) :
    List.Chain' (· ≤ ·) ((List.range n).map f) := by
  rw [List.chain'_iff_get]
  intro i hi
  simp only [List.get_eq_getElem, List.getElem_map, List.getElem_range]
  exact hf i

theorem div_total_le (a k total : Nat) (htot : 1 ≤ total) (ha : a ≤ total) :
    a * k / total ≤ k := by
  have h1 : a * k ≤ k * total := by
    calc a * k ≤ total * k := Nat.mul_le_mul_right k ha
    _ = k * total := Nat.mul_comm _ _
  calc a * k / total ≤ k * total / total := Nat.div_le_div_right h1
  _ = k := Nat.mul_div_cancel k htot

theorem pollWrites_spec :
    ∀ (k prev : Nat), 65 ≤ prev → prev ≤ 95 →
    List.Chain' (· ≤ ·) (prev :: pollWrites k prev) ∧
    ∀ x ∈ pollWrites k prev, 65 ≤ x ∧ x ≤ 95 := by
  intro k
  induction k with
  | zero =>
    intro prev _ _
    exact ⟨List.chain'_singleton prev, by simp [pollWrites]⟩
  | succ n ih =>
    intro prev h65 h95
    have hn65 : 65 ≤ min 95 (prev + 1) := le_min (by omega) (by omega)
    have hn95 : min 95 (prev + 1) ≤ 95 := min_le_left _ _
    have hpn : prev ≤ min 95 (prev + 1) := le_min h95 (by omega)
    obtain ⟨hch, hbd⟩ := ih (min 95 (prev + 1)) hn65 hn95
    constructor
    · rw [show pollWrites (n + 1) prev
          = min 95 (prev + 1) :: pollWrites n (min 95 (prev + 1)) from rfl]
      exact List.chain'_cons.mpr ⟨hpn, hch⟩
    · intro x hx
      rw [show pollWrites (n + 1) prev
          = min 95 (prev + 1) :: pollWrites n (min 95 (prev + 1)) from rfl] at hx
      rcases List.mem_cons.mp hx with he | hm
      · subst he
        exact ⟨hn65, hn95⟩
      · exact hbd x hm

/-- C8 (amended): in an execution that completes successfully the
progress writes are monotonically non-decreasing; on failure the error
handler writes a final 0, which breaks monotonicity. -/
theorem c8_progress_amended (total polls : Nat) (htot : 1 ≤ total) :
    List.Chain' (· ≤ ·) (progressTrace total polls true) := by
  unfold progressTrace
  have hraster : List.Chain' (· ≤ ·) (rasterWrites total) := by
    refine chain_le_map_range _ (fun i => ?_) total
    exact Nat.div_le_div_right (Nat.mul_le_mul_right 20 (by omega))
  have hanalyze : List.Chain' (· ≤ ·) (analyzeWrites total) := by
    refine chain_le_map_range _ (fun i => ?_) total
    exact Nat.add_le_add_left (Nat.div_le_div_right (Nat.mul_le_mul_right 40 (by omega))) 20
  have hraster_le : ∀ x ∈ rasterWrites total, x ≤ 20 := by
    intro x hx
    obtain ⟨p, hp, hpe⟩ := List.mem_map.mp hx
    have hval : x = (p + 1) * 20 / total := hpe.symm
    rw [hval]
    exact div_total_le (p + 1) 20 total htot (by
      have := List.mem_range.mp hp
      omega)
  have hanalyze_lb : ∀ x ∈ analyzeWrites total, 20 ≤ x := by
    intro x hx
    obtain ⟨p, hp, hpe⟩ := List.mem_map.mp hx
    have hval : x = 20 + (p + 1) * 40 / total := hpe.symm
    rw [hval]
    exact Nat.le_add_right 20 _
  have hanalyze_ub : ∀ x ∈ analyzeWrites total, x ≤ 60 := by
    intro x hx
    obtain ⟨p, hp, hpe⟩ := List.mem_map.mp hx
    have hval : x = 20 + (p + 1) * 40 / total := hpe.symm
    have hd : (p + 1) * 40 / total ≤ 40 := div_total_le (p + 1) 40 total htot (by
      have := List.mem_range.mp hp
      omega)
    rw [hval]
    exact le_trans (Nat.add_le_add_left hd 20) (by norm_num)
  obtain ⟨hpoll, hpoll_bd⟩ := pollWrites_spec polls 65 le_rfl (by omega)
  have hfront : List.Chain' (· ≤ ·) (rasterWrites total ++ analyzeWrites total) :=
    chain_le_append_of_bounds _ _ 20 hraster hanalyze hraster_le hanalyze_lb
  have hfront2 : List.Chain' (· ≤ ·)
      ((rasterWrites total ++ analyzeWrites total) ++ 65 :: pollWrites polls 65) := by
    refine chain_le_append_of_bounds _ _ 60 hfront hpoll ?_ ?_
    · intro x hx
      rcases List.mem_append.mp hx with hm1 | hm2
      · have := hraster_le x hm1
        omega
      · exact hanalyze_ub x hm2
    · intro y hy
      rcases List.mem_cons.mp hy with he | hm
      · omega
      · have := (hpoll_bd y hm).1
        omega
  rw [if_pos rfl]
  refine chain_le_append_of_bounds _ _ 95 hfront2 (List.chain'_singleton 100) ?_ ?_
  · intro x hx
    rcases List.mem_append.mp hx with hm1 | hm2
    · rcases List.mem_append.mp hm1 with ha1 | ha2
      · have := hraster_le x ha1
        omega
      · have := hanalyze_ub x ha2
        omega
    · rcases List.mem_cons.mp hm2 with he | hm
      · omega
      · exact (hpoll_bd x hm).2
  · intro y hy
    rcases List.mem_singleton.mp hy with rfl
    omega

theorem c8_progress_witness :
    1 ≤ 2 ∧ List.Chain' (· ≤ ·) (progressTrace 2 3 true) :=
  ⟨by decide, c8_progress_amended 2 3 (by decide)⟩

/-- C8 (counterexample): in an execution with one page and one poll
whose converter fails, the written sequence is `[20, 60, 65, 66, 0]` —
the error handler's final `job["progress"] = 0` makes the sequence
decrease, so the claim fails over executions that end in an error. -/
theorem c8_progress_cex :
    ¬ List.Chain' (· ≤ ·) (progressTrace 1 1 false) := by
  have h : progressTrace 1 1 false = [20, 60, 65, 66, 0] := rfl
  rw [h]
  simp [List.chain'_cons]

end ServerLight
